import Mathlib

/-!
Verification of the zbox storage-engine core vendored in
`src-tauri/vendor/zbox`.  The Rust sources are shallowly embedded: pure
functions become Lean functions, stateful code becomes explicit state
passing, machine integers become `Nat` (all values involved stay far below
`2^8`/`2^64`, except where a claim is about overflow, in which case the
reduction is written explicitly), and fallible code returns `Except`.
Parts of the engine that the repository snapshot does not include under
`src/` (the `fnode.rs` module and the libsodium AEAD primitives, which are
external C code) are modelled from the specification and are marked as such
in their doc comments.
-/

namespace Zbox

/-- Error kinds of the engine, from `vendor/zbox/src/error.rs` (the error
enum itself is referenced throughout the sources under `src/`); only the
variants exercised by the embedded operations are listed. -/
inductive Err where
  | NotFound
  | AlreadyExists
  | NotDir
  | IsDir
  | NotFile
  | IsRoot
  | NotEmpty
  | RepoOpened
  | WrongVersion
  | InvalidCost
  | InvalidCipher
  | InvalidArgument
  | InvalidPath
  | ReadOnly
  | Decrypt
  | Encrypt
  deriving DecidableEq, Repr

/-- Password-hash operation limit, `base/crypto.rs` lines 471-475. -/
inductive OpsLimit where
  | Interactive
  | Moderate
  | Sensitive
  deriving DecidableEq, Repr

/-- Password-hash memory limit, `base/crypto.rs` lines 526-535. -/
inductive MemLimit where
  | Interactive
  | Moderate
  | Sensitive
  deriving DecidableEq, Repr

/-- Password-hashing cost, `base/crypto.rs` lines 569-573. -/
structure Cost where
  opsLimit : OpsLimit
  memLimit : MemLimit
  deriving DecidableEq, Repr

/-- `Cost::to_u8`, `base/crypto.rs` lines 585-597: the ops level is placed
in the low nibble and the mem level in the high nibble
(`ops_limit | (mem_limit << 4)`).  All values fit a `u8`. -/
def Cost.toU8 (c : Cost) : Nat :=
  let opsLimit : Nat :=
    match c.opsLimit with
    | OpsLimit.Interactive => 0
    | OpsLimit.Moderate => 1
    | OpsLimit.Sensitive => 2
  let memLimit : Nat :=
    match c.memLimit with
    | MemLimit.Interactive => 0
    | MemLimit.Moderate => 1
    | MemLimit.Sensitive => 2
  opsLimit ||| (memLimit <<< 4)

/-- `Cost::from_u8`, `base/crypto.rs` lines 599-615: decode the low nibble
(`c & 0x0f`) as the ops level and the high nibble (`c >> 4`, a logical
shift on `u8`) as the mem level, failing with `InvalidCost` when either
nibble is above 2. -/
def Cost.fromU8 (c : Nat) : Except Err Cost := do
  let opsLimit ←
    match c &&& 0x0f with
    | 0 => pure OpsLimit.Interactive
    | 1 => pure OpsLimit.Moderate
    | 2 => pure OpsLimit.Sensitive
    | _ => throw Err.InvalidCost
  let memLimit ←
    match c >>> 4 with
    | 0 => pure MemLimit.Interactive
    | 1 => pure MemLimit.Moderate
    | 2 => pure MemLimit.Sensitive
    | _ => throw Err.InvalidCost
  pure { opsLimit := opsLimit, memLimit := memLimit }

/-- Semantic version, `base/version.rs` lines 8-13. -/
structure SemVer where
  major : Nat
  minor : Nat
  patch : Nat
  deriving DecidableEq, Repr

/-- `Version::match_repo_version`, `base/version.rs` lines 34-38: a stored
version matches when its major and minor components equal those of the
engine repo version (the patch component is ignored).  The engine repo
version constants live in `vendor/zbox/src/version.rs`, which is not part
of the snapshot, so the current repo version is passed as the `repoVer`
parameter instead of being a global constant. -/
def matchRepoVersion (repoVer v : SemVer) : Bool :=
  v.major == repoVer.major && v.minor == repoVer.minor

/-- Super block fields used by `Volume::open`: the stored format version
and the opaque payload (`volume/super_block.rs`, referenced from
`volume/volume.rs` lines 98-123). -/
structure SuperBlkM where
  ver : SemVer
  payload : List Nat
  deriving DecidableEq, Repr

/-- `Volume::open`, `volume/volume.rs` lines 93-124, with the three
side-effecting stages (storage connect, super-block load, storage open)
passed in as their results: connect, then load the super block, then fail
with `WrongVersion` unless the stored version matches the repo version,
then open the storage and return the super-block payload. -/
def volumeOpen (repoVer : SemVer) (connectRes : Except Err Unit)
    (loadRes : Except Err SuperBlkM) (storageOpenRes : Except Err Unit) :
    Except Err (List Nat) := do
  connectRes
  let superBlk ← loadRes
  if !(matchRepoVersion repoVer superBlk.ver) then
    throw Err.WrongVersion
  storageOpenRes
  pure superBlk.payload

/-- In-memory depot lock flag, `volume/storage/mem/mem.rs` line 19. -/
structure MemDepotM where
  isOpened : Bool
  deriving DecidableEq, Repr

/-- `MemStorage::lock_repo`, `volume/storage/mem/mem.rs` lines 58-72:
if the depot is already marked opened and `force` is not set, fail with
`RepoOpened`; otherwise (fresh depot, or forced take-over) mark the depot
opened and the storage attached.  Returns the new attached flag and depot
state. -/
def memLockRepo (depot : MemDepotM) (force : Bool) :
    Except Err (Bool × MemDepotM) :=
  if depot.isOpened && !force then
    throw Err.RepoOpened
  else
    pure (true, { isOpened := true })

/-- `MemStorage::init`, `volume/storage/mem/mem.rs` lines 85-91: insert a
fresh depot (whose lock flag starts false) and lock it without force. -/
def memInit : Except Err (Bool × MemDepotM) :=
  memLockRepo { isOpened := false } false

/-- `MemStorage::open`, `volume/storage/mem/mem.rs` lines 93-96: locking
the existing depot with the caller-supplied force flag. -/
def memOpen (depot : MemDepotM) (force : Bool) :
    Except Err (Bool × MemDepotM) :=
  memLockRepo depot force

/-- `FileStorage::lock_repo`, `volume/storage/file/file.rs` lines 95-110:
the advisory lock marker is the existence of the `.repo_lock` file; if it
exists and `force` is not set, fail with `RepoOpened`; otherwise create it
(so it exists afterwards) and mark the storage attached.  Returns the new
attached flag and marker state. -/
def fileLockRepo (lockFileExists : Bool) (force : Bool) :
    Except Err (Bool × Bool) :=
  if lockFileExists && !force then
    throw Err.RepoOpened
  else
    pure (true, true)

/-- `FileStorage::init`, `volume/storage/file/file.rs` lines 128-140, lock
acquisition stage: a fresh repo directory has no lock marker, and init
locks without force. -/
def fileInit : Except Err (Bool × Bool) :=
  fileLockRepo false false

/-- `FileStorage::open`, `volume/storage/file/file.rs` lines 143-147, lock
acquisition stage. -/
def fileOpen (lockFileExists : Bool) (force : Bool) :
    Except Err (Bool × Bool) :=
  fileLockRepo lockFileExists force

/-- First index at which `needle` occurs as a contiguous sub-list of `hay`
(the embedding of `str::find` for a multi-character pattern; URIs here are
ASCII so byte indices and character indices coincide). -/
def findSubstring (needle : List Char) : List Char → Option Nat
  | [] => if needle = [] then some 0 else none
  | c :: t =>
    if needle.isPrefixOf (c :: t) then some 0
    else (findSubstring needle t).map (· + 1)

/-- `mask_uri`, `fs/fs.rs` lines 21-28: if the URI contains an `'@'`, the
range between the end of the first `"://"` and the first `'@'` is replaced
by `"***"`; otherwise the URI is returned unchanged.  `none` models the
two panicking paths of the Rust code: `find("://").unwrap()` when there is
an `'@'` but no `"://"`, and `replace_range` when the first `"://"` ends
after the first `'@'`.  This masked string is the only form of the URI
surfaced by the `info!` diagnostics of `Fs::create` (line 131) and
`Fs::open` (line 180). -/
def maskUri (uri : List Char) : Option (List Char) :=
  match List.findIdx? (fun c => c == '@') uri with
  | none => some uri
  | some endIdx =>
    match findSubstring [':', '/', '/'] uri with
    | none => none
    | some sepIdx =>
      let beginIdx := sepIdx + 3
      if beginIdx ≤ endIdx then
        some (uri.take beginIdx ++ ['*', '*', '*'] ++ uri.drop endIdx)
      else none

/-- Modelled from the spec: the fnode versioning module (`fs/fnode.rs`) is
not part of the snapshot under `src/`; per spec section 3 (Version) and
section 4.5 (`new_version`), versions of a file form an append-only
sequence whose numbers start at 1 and increase monotonically, and the
oldest version is evicted once the count exceeds the configured limit.
A version is represented by its number; `addVersion` appends the next
version number and evicts from the front down to `limit` entries. -/
def addVersion (limit : Nat) (vers : List Nat) : List Nat :=
  let appended := vers ++ [(vers.getLast?.getD 0) + 1]
  if limit < appended.length then appended.drop (appended.length - limit)
  else appended

/-- N successive writes to a fresh file under version limit `limit`
(each write finishing a new version, as in `File::write` + `finish`). -/
def writeVersions (limit : Nat) : Nat → List Nat
  | 0 => []
  | n + 1 => addVersion limit (writeVersions limit n)

/-- Crypto cipher primitives, `base/crypto.rs` lines 650-665. -/
inductive Cipher where
  | Xchacha
  | Aes
  deriving DecidableEq, Repr

/-- Authentication tag size, `base/crypto.rs` line 714. -/
def ATAG_SIZE : Nat := 16

/-- `Crypto::nonce_size`, `base/crypto.rs` lines 992-998 with the nonce
size constants of lines 719-720 (the AES nonce is the extended 28-byte
form). -/
def nonceSize : Cipher → Nat
  | Cipher.Xchacha => 24
  | Cipher.Aes => 28

/-- Checked `usize` subtraction: `none` models the arithmetic-underflow
panic of debug-mode Rust subtraction. -/
def checkedSub (a b : Nat) : Option Nat :=
  if b ≤ a then some (a - b) else none

/-- `Crypto::encrypted_len`, `base/crypto.rs` lines 1022-1025. -/
def encryptedLen (cipher : Cipher) (msgLen : Nat) : Nat :=
  nonceSize cipher + ATAG_SIZE + msgLen

/-- `Crypto::decrypted_len`, `base/crypto.rs` lines 1027-1030:
`ctxt_len - nonce_size - ATAG_SIZE` on `usize`, with each subtraction
checked. -/
def decryptedLen (cipher : Cipher) (ctxtLen : Nat) : Option Nat := do
  let x ← checkedSub ctxtLen (nonceSize cipher)
  checkedSub x ATAG_SIZE

/-- Bytes are residues modulo 256. -/
abbrev Byte := ZMod 256

/-- Modelled from the spec: the AEAD primitives called by
`Crypto::encrypt_raw`/`decrypt_raw` (`crypto_aead_xchacha20poly1305_ietf_*`
and `crypto_aead_aes256gcm_*`) are external libsodium C functions, not code
of this repository.  Per spec section 4.1 they realize authenticated
encryption: the cipher body is the message masked by a key- and
nonce-derived pad, and the 16-byte authentication tag binds key, nonce,
associated data and cipher body, so that decryption recomputes the tag and
fails closed on any mismatch.  The pad of byte `i`. -/
def pad (key nonce : List Byte) (i : Nat) : Byte :=
  key.sum + nonce.sum + (i : Byte)

/-- Modelled from the spec (see `pad`): mask the message bytes with the
pad, starting at byte index `i`. -/
def sealBody (key nonce : List Byte) : Nat → List Byte → List Byte
  | _, [] => []
  | i, b :: rest => (b + pad key nonce i) :: sealBody key nonce (i + 1) rest

/-- Modelled from the spec (see `pad`): unmask a cipher body. -/
def openBody (key nonce : List Byte) : Nat → List Byte → List Byte
  | _, [] => []
  | i, b :: rest => (b - pad key nonce i) :: openBody key nonce (i + 1) rest

/-- Modelled from the spec (see `pad`): the 16-byte authentication tag
over key, nonce, associated data and cipher body; its first byte is a
modular checksum of all of them, which changes whenever any single byte
of nonce, associated data or body changes. -/
def authTag (key nonce ad body : List Byte) : List Byte :=
  (key.sum + nonce.sum + ad.sum + body.sum) :: List.replicate (ATAG_SIZE - 1) 0

/-- `Crypto::encrypt_with_ad`, `base/crypto.rs` lines 1093-1105 together
with `encrypt_raw` lines 1033-1091: a nonce is placed in front, followed
by the sealed message and the authentication tag.  The Rust code draws the
nonce from the system RNG; here the sampled nonce is an explicit argument
(theorems require its length to be the cipher nonce size). -/
def encryptWithAd (cipher : Cipher) (msg key ad nonce : List Byte) :
    List Byte :=
  let _ := cipher
  nonce ++ (sealBody key nonce 0 msg ++ authTag key nonce ad (sealBody key nonce 0 msg))

/-- `Crypto::decrypt_with_ad`, `base/crypto.rs` lines 1171-1183 together
with `decrypt_raw` lines 1123-1169: first the plaintext buffer is sized
with `decrypted_len` (a checked subtraction: `none` is the underflow panic
on inputs shorter than nonce size + 16), then the nonce is split off the
front and the ideal AEAD opens body and tag, failing closed with
`Err.Decrypt` on a tag mismatch. -/
def decryptWithAd (cipher : Cipher) (ctxt key ad : List Byte) :
    Option (Except Err (List Byte)) := do
  let _ ← decryptedLen cipher ctxt.length
  let nonce := ctxt.take (nonceSize cipher)
  let rest := ctxt.drop (nonceSize cipher)
  let body := rest.take (rest.length - ATAG_SIZE)
  let tag := rest.drop (rest.length - ATAG_SIZE)
  if tag = authTag key nonce ad body then
    some (Except.ok (openBody key nonce 0 body))
  else
    some (Except.error Err.Decrypt)

/-- `Crypto::decrypt`, `base/crypto.rs` lines 1185-1188: decryption with
empty associated data. -/
def decryptNoAd (cipher : Cipher) (ctxt key : List Byte) :
    Option (Except Err (List Byte)) :=
  decryptWithAd cipher ctxt key []

/-- File-system node.  Modelled from the spec where `fs/fnode.rs` is
missing from the snapshot: per spec section 3 (Fnode), a file holds its
ordered version list (here the version numbers, plus the version limit of
its creation options), and a directory holds its child-name map (here an
association list, names unique as in the underlying hash map). -/
inductive FNode where
  | file (limit : Nat) (vers : List Nat)
  | dir (children : List (String × FNode))
  deriving Repr

/-- Fnode type test (`Fnode::is_dir`). -/
def FNode.isDir : FNode → Bool
  | .dir _ => true
  | .file _ _ => false

/-- Fnode type test (`Fnode::is_file`). -/
def FNode.isFile : FNode → Bool
  | .dir _ => false
  | .file _ _ => true

/-- `Fnode::children_cnt`: number of entries of a directory. -/
def FNode.childrenCnt : FNode → Nat
  | .dir kids => kids.length
  | .file _ _ => 0

/-- Child lookup in a directory entry list (the name→child map of spec
section 3). -/
def lookupChild (kids : List (String × FNode)) (name : String) :
    Option FNode :=
  (kids.find? (fun e => e.fst == name)).map (fun e => e.snd)

/-- Update the first entry of the given name (hash-map update). -/
def updateChild : List (String × FNode) → String → (FNode → FNode) →
    List (String × FNode)
  | [], _, _ => []
  | (n, ch) :: rest, c, g =>
    if n == c then (n, g ch) :: rest else (n, ch) :: updateChild rest c g

/-- Remove the first entry of the given name (hash-map removal, as done by
`Fnode::remove_from_parent`). -/
def eraseChild : List (String × FNode) → String → List (String × FNode)
  | [], _ => []
  | (n, ch) :: rest, c =>
    if n == c then rest else (n, ch) :: eraseChild rest c

/-- Path resolution below a node, `Fs::resolve` (`fs/fs.rs` lines
256-270): paths are embedded as their component lists after the root
(`Fs::resolve` accepts only absolute paths), and each component is looked
up in the current directory (`Fnode::child`; resolving a component under a
file finds no child entry, hence `NotFound`). -/
def resolveNode : FNode → List String → Except Err FNode
  | n, [] => Except.ok n
  | .file _ _, _ :: _ => Except.error Err.NotFound
  | .dir kids, c :: p =>
    match lookupChild kids c with
    | none => Except.error Err.NotFound
    | some ch => resolveNode ch p

/-- Apply a function to the node at a path (leaves the tree unchanged if
the path does not lead through directories). -/
def mapAt : FNode → List String → (FNode → FNode) → FNode
  | t, [], f => f t
  | .file lim vers, _ :: _, _ => .file lim vers
  | .dir kids, c :: q, f => .dir (updateChild kids c (fun ch => mapAt ch q f))

/-- Erase the entry of the given name from a directory node (the
parent-level effect of `Fnode::remove_from_parent`). -/
def eraseTop (c : String) : FNode → FNode
  | .dir kids => .dir (eraseChild kids c)
  | .file lim vers => .file lim vers

/-- Detach the node at a (nonempty) path from its parent directory
(`Fnode::remove_from_parent`). -/
def removeAt : FNode → List String → FNode
  | t, [] => t
  | .file lim vers, _ :: _ => .file lim vers
  | .dir kids, [c] => .dir (eraseChild kids c)
  | .dir kids, c :: q :: r =>
    .dir (updateChild kids c (fun ch => removeAt ch (q :: r)))

/-- Attach a node under the parent of a (nonempty) path with the path's
last component as its name (`Fnode::add_child`). -/
def insertAt : FNode → List String → FNode → FNode
  | t, [], _ => t
  | .file lim vers, _ :: _, _ => .file lim vers
  | .dir kids, [c], n => .dir (kids ++ [(c, n)])
  | .dir kids, c :: q :: r, n =>
    .dir (updateChild kids c (fun ch => insertAt ch (q :: r) n))

/-- File-system state: root fnode and the read-only flag (`fs/fs.rs`
lines 100-110; the other fields are infrastructure handles). -/
structure FsM where
  root : FNode
  readOnly : Bool

/-- `Fs::resolve` applied to the file system root. -/
def fsResolve (fs : FsM) (path : List String) : Except Err FNode :=
  resolveNode fs.root path

/-- `Fs::history`, `fs/fs.rs` lines 363-370: resolve the path, fail with
`IsDir` on a directory, otherwise return the fnode's version list
(`Fnode::history` returns the versions oldest first). -/
def fsHistory (fs : FsM) (path : List String) : Except Err (List Nat) :=
  match fsResolve fs path with
  | .error e => .error e
  | .ok (.dir _) => .error Err.IsDir
  | .ok (.file _ vers) => .ok vers

/-- `Fs::read_dir`, `fs/fs.rs` lines 350-353 with `Fnode::read_dir`
modelled from the spec (directory operations read the name→child map):
the entries of the directory with their file types (`true` = directory),
`NotDir` on a file. -/
def readDir (fs : FsM) (path : List String) :
    Except Err (List (String × Bool)) :=
  match fsResolve fs path with
  | .error e => .error e
  | .ok (.file _ _) => .error Err.NotDir
  | .ok (.dir kids) => .ok (kids.map (fun e => (e.fst, e.snd.isDir)))

/-- `Fs::create_fnode`, `fs/fs.rs` lines 295-332: reject on a read-only
repo, resolve the parent (`resolve_parent`, lines 273-281, fails with
`IsRoot` on the root path), require the parent to be a directory without a
child of that name, then attach the new node. -/
def createFnode (fs : FsM) (path : List String) (node : FNode) :
    Except Err Unit × FsM :=
  if fs.readOnly then (.error Err.ReadOnly, fs)
  else
    match path.getLast? with
    | none => (.error Err.IsRoot, fs)
    | some name =>
      match fsResolve fs path.dropLast with
      | .error e => (.error e, fs)
      | .ok (.file _ _) => (.error Err.NotDir, fs)
      | .ok (.dir kids) =>
        if (lookupChild kids name).isSome then (.error Err.AlreadyExists, fs)
        else (.ok (), { fs with root := insertAt fs.root path node })

/-- Add a new version to a file node (`Fnode::add_version` on the cloned
source content, used by `Fs::copy`). -/
def addVersionNode : FNode → FNode
  | .file lim vers => .file lim (addVersion lim vers)
  | .dir kids => .dir kids

/-- `Fs::copy`, `fs/fs.rs` lines 373-432: reject on a read-only repo; the
source must resolve to a file; if the target resolves and is the same
fnode as the source, return `Ok` without any change (`Arc::ptr_eq`; equal
component paths resolve to the same cached fnode and, the hierarchy being
a tree without hard links, distinct paths resolve to distinct fnodes, so
pointer equality is embedded as path equality); an existing target must be
a file and receives a new version cloned from the source; a missing target
(`NotFound`) is first created with the source's options. -/
def copy (fs : FsM) (fromP toP : List String) : Except Err Unit × FsM :=
  if fs.readOnly then (.error Err.ReadOnly, fs)
  else
    match fsResolve fs fromP with
    | .error e => (.error e, fs)
    | .ok (.dir _) => (.error Err.NotFile, fs)
    | .ok (.file srcLimit _) =>
      match fsResolve fs toP with
      | .ok tgt =>
        if toP = fromP then (.ok (), fs)
        else
          match tgt with
          | .dir _ => (.error Err.NotFile, fs)
          | .file _ _ =>
            (.ok (), { fs with root := mapAt fs.root toP addVersionNode })
      | .error e =>
        if e = Err.NotFound then
          match createFnode fs toP (.file srcLimit []) with
          | (.error e2, fs2) => (.error e2, fs2)
          | (.ok _, fs2) =>
            (.ok (), { fs2 with root := mapAt fs2.root toP addVersionNode })
        else (.error e, fs)

/-- `Fs::remove_file`, `fs/fs.rs` lines 489-516: reject on a read-only
repo, resolve the path, require a file, then detach it from its parent
(the version clearing and fnode deletion concern content storage, not the
tree). -/
def removeFile (fs : FsM) (path : List String) : Except Err Unit × FsM :=
  if fs.readOnly then (.error Err.ReadOnly, fs)
  else
    match fsResolve fs path with
    | .error e => (.error e, fs)
    | .ok (.dir _) => (.error Err.NotFile, fs)
    | .ok (.file _ _) =>
      (.ok (), { fs with root := removeAt fs.root path })

/-- `Fs::remove_dir`, `fs/fs.rs` lines 519-549: reject on a read-only
repo, resolve the path, require a directory, fail with `IsRoot` on the
root fnode (the root is the unique fnode at the empty path) and with
`NotEmpty` on a directory with children, then detach it from its
parent. -/
def removeDir (fs : FsM) (path : List String) : Except Err Unit × FsM :=
  if fs.readOnly then (.error Err.ReadOnly, fs)
  else
    match fsResolve fs path with
    | .error e => (.error e, fs)
    | .ok (.file _ _) => (.error Err.NotDir, fs)
    | .ok (.dir kids) =>
      if path = [] then (.error Err.IsRoot, fs)
      else if 0 < kids.length then (.error Err.NotEmpty, fs)
      else (.ok (), { fs with root := removeAt fs.root path })

mutual

/-- `Fs::remove_dir_all`, `fs/fs.rs` lines 552-565: read the directory,
remove each entry (files via `remove_file`, directories recursively),
then remove the directory itself, treating an `IsRoot` failure of that
last step as success; every other error propagates.  The Rust recursion
is embedded with explicit fuel; `none` means the fuel ran out and never
arises for fuel at least the subtree size. -/
def removeDirAll : Nat → FsM → List String → Option (Except Err Unit × FsM)
  | 0, _, _ => none
  | fuel + 1, fs, p =>
    match readDir fs p with
    | .error e => some (.error e, fs)
    | .ok entries =>
      match removeEntries fuel fs p entries with
      | none => none
      | some (.error e, fs2) => some (.error e, fs2)
      | some (.ok _, fs2) =>
        match removeDir fs2 p with
        | (.ok _, fs3) => some (.ok (), fs3)
        | (.error e, fs3) =>
          if e = Err.IsRoot then some (.ok (), fs3)
          else some (.error e, fs3)
termination_by fuel _ _ => (fuel, 0)

/-- The child loop of `Fs::remove_dir_all` (`fs/fs.rs` lines 553-559):
each directory entry is removed in turn, stopping at the first error. -/
def removeEntries : Nat → FsM → List String → List (String × Bool) →
    Option (Except Err Unit × FsM)
  | _, fs, _, [] => some (.ok (), fs)
  | fuel, fs, p, (name, entryIsDir) :: rest =>
    match (if entryIsDir then removeDirAll fuel fs (p ++ [name])
           else some (removeFile fs (p ++ [name]))) with
    | none => none
    | some (.error e, fs2) => some (.error e, fs2)
    | some (.ok _, fs2) => removeEntries fuel fs2 p rest
termination_by fuel _ _ es => (fuel, es.length + 1)

end

/-- The commit phase of `Fs::rename` (`fs/fs.rs` lines 613-635): resolve
the target parent (`resolve_parent`, failing with `IsRoot` on the root
path), then in one transaction detach the source from its parent, detach
and drop an existing target, and attach the source node under the target
parent with the target's last component as its name. -/
def renameCommit (fs : FsM) (fromP toP : List String) (src : FNode)
    (tgtOpt : Option FNode) : Except Err Unit × FsM :=
  match toP.getLast? with
  | none => (.error Err.IsRoot, fs)
  | some _name =>
    match fsResolve fs toP.dropLast with
    | .error e => (.error e, fs)
    | .ok _tgtParent =>
      let root1 := removeAt fs.root fromP
      let root2 :=
        match tgtOpt with
        | some _ => removeAt root1 toP
        | none => root1
      (.ok (), { fs with root := insertAt root2 toP src })

/-- `Fs::rename`, `fs/fs.rs` lines 568-636: reject on a read-only repo;
renaming a path onto itself succeeds doing nothing (before any
resolution); a destination that the source path is a prefix of is
rejected with `InvalidArgument` (`Path::starts_with` compares whole
components, and every absolute path starts with the root path); then the
source must resolve, the target may resolve (`NotFound` means a fresh
name, any other error propagates); a source or target that is the root
fnode is rejected with `IsRoot` (the root is the unique fnode at the
empty path); a file may not replace a directory (`IsDir`), a directory
may not replace a file (`NotDir`) nor a non-empty directory
(`NotEmpty`); finally the move is committed. -/
def rename (fs : FsM) (fromP toP : List String) : Except Err Unit × FsM :=
  if fs.readOnly then (.error Err.ReadOnly, fs)
  else if fromP = toP then (.ok (), fs)
  else if fromP.isPrefixOf toP then (.error Err.InvalidArgument, fs)
  else
    match fsResolve fs fromP with
    | .error e => (.error e, fs)
    | .ok src =>
      match (match fsResolve fs toP with
             | .ok t => Except.ok (some t)
             | .error e =>
               if e = Err.NotFound then Except.ok none
               else Except.error e : Except Err (Option FNode)) with
      | .error e => (.error e, fs)
      | .ok tgtOpt =>
        if fromP = [] then (.error Err.IsRoot, fs)
        else
          match tgtOpt with
          | some tgt =>
            if toP = [] then (.error Err.IsRoot, fs)
            else if src.isFile && tgt.isDir then (.error Err.IsDir, fs)
            else if src.isDir && tgt.isFile then (.error Err.NotDir, fs)
            else if src.isDir && 0 < tgt.childrenCnt then
              (.error Err.NotEmpty, fs)
            else renameCommit fs fromP toP src (some tgt)
          | none => renameCommit fs fromP toP src none

mutual

/-- Size of a node (for fuel bounds of `removeDirAll`). -/
def sizeF : FNode → Nat
  | .file _ _ => 1
  | .dir kids => 1 + sizeKids kids

/-- Size of an entry list. -/
def sizeKids : List (String × FNode) → Nat
  | [] => 0
  | (_, ch) :: rest => sizeF ch + sizeKids rest

end

end Zbox

deriving instance DecidableEq for Except

namespace Zbox

/-- C6: for every `Cost` value the `to_u8`/`from_u8` codec round-trips
(`from_u8 (to_u8 c) = Ok c`), and for every byte `b`, `from_u8 b` fails
with `InvalidCost` exactly when the low nibble or the high nibble of `b`
is greater than 2. -/
theorem cost_codec_roundtrip_and_error :
    (∀ c : Cost, Cost.fromU8 (Cost.toU8 c) = Except.ok c) ∧
      (∀ b : Fin 256,
        (Cost.fromU8 b.val = Except.error Err.InvalidCost ↔
          2 < b.val &&& 0x0f ∨ 2 < b.val >>> 4)) := by
  constructor
  · intro c
    rcases c with ⟨ops, mem⟩
    rcases ops <;> rcases mem <;> rfl
  · set_option maxRecDepth 4096 in decide

/-- C4: for every stored super block that loads successfully,
`Volume::open` fails with `WrongVersion` exactly when the stored format
version differs from the engine repo version in the major or the minor
component; when major and minor both match (in particular when only the
patch component differs) the version check passes and the open proceeds
with the storage open stage.  The hypothesis that the storage open stage
never reports `WrongVersion` reflects that `volume/volume.rs` line 102 is
the only place in the sources constructing that error. -/
theorem volume_open_wrong_version (repoVer : SemVer) (sb : SuperBlkM)
    (storageOpenRes : Except Err Unit)
    (hso : storageOpenRes ≠ Except.error Err.WrongVersion) :
    (volumeOpen repoVer (Except.ok ()) (Except.ok sb) storageOpenRes
        = Except.error Err.WrongVersion
      ↔ (sb.ver.major ≠ repoVer.major ∨ sb.ver.minor ≠ repoVer.minor)) ∧
    (sb.ver.major = repoVer.major → sb.ver.minor = repoVer.minor →
      volumeOpen repoVer (Except.ok ()) (Except.ok sb) (Except.ok ())
        = Except.ok sb.payload) := by
  constructor
  · by_cases hmaj : sb.ver.major = repoVer.major <;>
      by_cases hmin : sb.ver.minor = repoVer.minor <;>
        simp [volumeOpen, matchRepoVersion, hmaj, hmin, Bind.bind,
          Except.bind, Pure.pure, Except.pure]
    rcases storageOpenRes with e | v
    · simp
      intro h
      exact absurd (by rw [h]) hso
    · simp
  · intro hmaj hmin
    simp [volumeOpen, matchRepoVersion, hmaj, hmin, Bind.bind,
      Except.bind, Pure.pure, Except.pure]

/-- Closed instance of `volume_open_wrong_version`: a stored version
`1.2.3` against repo version `1.2.9` (patch-only difference) opens
successfully, while `1.3.3` fails with `WrongVersion`. -/
theorem volume_open_wrong_version_witness :
    (volumeOpen ⟨1, 2, 9⟩ (Except.ok ()) (Except.ok ⟨⟨1, 2, 3⟩, [7]⟩)
        (Except.ok ()) = Except.ok [7]) ∧
      (volumeOpen ⟨1, 2, 9⟩ (Except.ok ()) (Except.ok ⟨⟨1, 3, 3⟩, [7]⟩)
        (Except.ok ()) = Except.error Err.WrongVersion) :=
  ⟨(volume_open_wrong_version ⟨1, 2, 9⟩ ⟨⟨1, 2, 3⟩, [7]⟩ (Except.ok ())
      (by decide)).2 rfl rfl,
    ((volume_open_wrong_version ⟨1, 2, 9⟩ ⟨⟨1, 3, 3⟩, [7]⟩ (Except.ok ())
      (by decide)).1).mpr (Or.inr (by decide))⟩

/-- C5: for both the in-memory and the local-file backend, locking an
already-locked volume without `force` fails with `RepoOpened`; with
`force` it succeeds and keeps the marker set; and any successful `init`
(create) or `open` leaves the lock marker set, so a second non-forced
open fails with `RepoOpened`. -/
theorem lock_repo_advisory :
    (memOpen { isOpened := true } false = Except.error Err.RepoOpened) ∧
    (memOpen { isOpened := true } true
      = Except.ok (true, { isOpened := true })) ∧
    (∀ (dop force att d2op : Bool),
      (memInit = Except.ok (att, ⟨d2op⟩)
          ∨ memOpen ⟨dop⟩ force = Except.ok (att, ⟨d2op⟩))
        → d2op = true
          ∧ memOpen ⟨d2op⟩ false = Except.error Err.RepoOpened) ∧
    (fileOpen true false = Except.error Err.RepoOpened) ∧
    (fileOpen true true = Except.ok (true, true)) ∧
    (∀ (lock force att lock2 : Bool),
      (fileInit = Except.ok (att, lock2)
          ∨ fileOpen lock force = Except.ok (att, lock2))
        → lock2 = true
          ∧ fileOpen lock2 false = Except.error Err.RepoOpened) := by
  refine ⟨rfl, rfl, ?_, rfl, rfl, ?_⟩ <;> decide

/-- Closed instance of `lock_repo_advisory`: a fresh in-memory create
leaves the depot locked, and a second non-forced open of it fails. -/
theorem sealBody_length (key nonce : List Byte) :
    ∀ (i : Nat) (msg : List Byte),
      (sealBody key nonce i msg).length = msg.length := by
  intro i msg
  induction msg generalizing i with
  | nil => rfl
  | cons b rest ih => simp [sealBody, ih]

theorem openBody_sealBody (key nonce : List Byte) :
    ∀ (i : Nat) (msg : List Byte),
      openBody key nonce i (sealBody key nonce i msg) = msg := by
  intro i msg
  induction msg generalizing i with
  | nil => rfl
  | cons b rest ih =>
    simp [sealBody, openBody, ih]

theorem authTag_length (key nonce ad body : List Byte) :
    (authTag key nonce ad body).length = ATAG_SIZE := by
  simp [authTag, ATAG_SIZE]

theorem sum_set (l : List Byte) :
    ∀ (i : Nat) (b : Byte), i < l.length →
      (l.set i b).sum = l.sum - l.getD i 0 + b := by
  induction l with
  | nil => intro i b h; simp at h
  | cons a t ih =>
    intro i b h
    cases i with
    | zero => simp [List.set, List.getD]; ring
    | succ i =>
      simp only [List.set, List.sum_cons, List.getD_cons_succ]
      rw [ih i b (by simpa using h)]
      ring

theorem set_ne_self (l : List Byte) (i : Nat) (b : Byte)
    (h : i < l.length) (hb : b ≠ l.getD i 0) : l.set i b ≠ l := by
  intro heq
  have h1 : (l.set i b)[i]? = some b := List.getElem?_set_self h
  rw [heq] at h1
  have h2 : l.getD i 0 = b := by
    rw [List.getD_eq_getElem?_getD, h1]
    rfl
  exact hb h2.symm

theorem decrypt_parts (cipher : Cipher) (key ad nonce body tag : List Byte)
    (hn : nonce.length = nonceSize cipher) (ht : tag.length = ATAG_SIZE) :
    decryptWithAd cipher (nonce ++ (body ++ tag)) key ad
      = some (if tag = authTag key nonce ad body
          then Except.ok (openBody key nonce 0 body)
          else Except.error Err.Decrypt) := by
  have hlen : (nonce ++ (body ++ tag)).length
      = nonceSize cipher + (body.length + ATAG_SIZE) := by
    simp [hn, ht]
  have hdl : decryptedLen cipher (nonce ++ (body ++ tag)).length
      = some body.length := by
    rw [hlen]
    simp [decryptedLen, checkedSub, Bind.bind, Option.bind]
  have htake : (nonce ++ (body ++ tag)).take (nonceSize cipher) = nonce := by
    rw [← hn, List.take_left]
  have hdrop : (nonce ++ (body ++ tag)).drop (nonceSize cipher)
      = body ++ tag := by
    rw [← hn, List.drop_left]
  have hrl : (body ++ tag).length - ATAG_SIZE = body.length := by
    simp [ht]
  have hbt : (body ++ tag).take ((body ++ tag).length - ATAG_SIZE)
      = body := by
    rw [hrl, List.take_left]
  have htg : (body ++ tag).drop ((body ++ tag).length - ATAG_SIZE)
      = tag := by
    rw [hrl, List.drop_left]
  unfold decryptWithAd
  rw [hdl]
  simp only [Option.bind_some, htake, hdrop, hbt, htg]
  split <;> rfl

/-- C1: for every key, associated data, plaintext and nonce of the cipher
nonce size, decrypting the output of `encrypt_with_ad` with the same key
and associated data yields the plaintext, and changing any single byte of
that ciphertext makes decryption return the `Decrypt` error (and never a
partial plaintext). -/
theorem aead_roundtrip_and_tamper (cipher : Cipher)
    (key ad msg nonce : List Byte) (hn : nonce.length = nonceSize cipher) :
    decryptWithAd cipher (encryptWithAd cipher msg key ad nonce) key ad
      = some (Except.ok msg) ∧
    (∀ i b, i < (encryptWithAd cipher msg key ad nonce).length →
      b ≠ (encryptWithAd cipher msg key ad nonce).getD i 0 →
      decryptWithAd cipher ((encryptWithAd cipher msg key ad nonce).set i b)
        key ad = some (Except.error Err.Decrypt)) := by
  have hBlen : (sealBody key nonce 0 msg).length = msg.length :=
    sealBody_length key nonce 0 msg
  have hTlen : (authTag key nonce ad (sealBody key nonce 0 msg)).length
      = ATAG_SIZE := authTag_length key nonce ad _
  constructor
  · rw [encryptWithAd]
    rw [decrypt_parts cipher key ad nonce _ _ hn hTlen]
    rw [if_pos rfl, openBody_sealBody]
  · intro i b hi hb
    rw [encryptWithAd] at hi hb ⊢
    simp only [List.length_append, hBlen, hTlen] at hi
    rcases Nat.lt_or_ge i nonce.length with h1 | h1
    · rw [List.set_append_left i b h1]
      have hgd : (nonce ++ (sealBody key nonce 0 msg
          ++ authTag key nonce ad (sealBody key nonce 0 msg))).getD i 0
          = nonce.getD i 0 := List.getD_append _ _ _ i h1
      rw [hgd] at hb
      rw [decrypt_parts cipher key ad _ _ _
        (by rw [List.length_set, hn]) hTlen]
      rw [if_neg ?hneq]
      case hneq =>
        intro heq
        rw [authTag, authTag] at heq
        have hhead := (List.cons.injEq _ _ _ _).mp heq |>.1
        have h2 := add_right_cancel (add_right_cancel hhead)
        have h3 := add_left_cancel h2
        rw [sum_set nonce i b h1] at h3
        exact hb (by linear_combination -h3)
    · rcases Nat.lt_or_ge (i - nonce.length) msg.length with h2 | h2
      · rw [List.set_append_right i b h1]
        have hgd : (nonce ++ (sealBody key nonce 0 msg
            ++ authTag key nonce ad (sealBody key nonce 0 msg))).getD i 0
            = (sealBody key nonce 0 msg).getD (i - nonce.length) 0 := by
          rw [List.getD_append_right _ _ _ _ h1]
          exact List.getD_append _ _ _ _ (by rw [hBlen]; exact h2)
        rw [hgd] at hb
        rw [List.set_append_left _ b (by rw [hBlen]; exact h2)]
        rw [decrypt_parts cipher key ad _ _ _ hn hTlen]
        rw [if_neg ?hneq2]
        case hneq2 =>
          intro heq
          rw [authTag, authTag] at heq
          have hhead := (List.cons.injEq _ _ _ _).mp heq |>.1
          have h3 := add_left_cancel hhead
          rw [sum_set _ _ b (by rw [hBlen]; exact h2)] at h3
          exact hb (by linear_combination -h3)
      · have h3 : i - nonce.length - (sealBody key nonce 0 msg).length
            < (authTag key nonce ad (sealBody key nonce 0 msg)).length := by
          rw [hTlen, hBlen]
          omega
        rw [List.set_append_right i b h1]
        rw [List.set_append_right _ b (by rw [hBlen]; exact h2)]
        have hgd : (nonce ++ (sealBody key nonce 0 msg
            ++ authTag key nonce ad (sealBody key nonce 0 msg))).getD i 0
            = (authTag key nonce ad (sealBody key nonce 0 msg)).getD
                (i - nonce.length - (sealBody key nonce 0 msg).length)
                0 := by
          rw [List.getD_append_right _ _ _ _ h1]
          rw [List.getD_append_right _ _ _ _ (by rw [hBlen]; exact h2)]
        rw [hgd] at hb
        rw [decrypt_parts cipher key ad _ _ _ hn
          (by rw [List.length_set, hTlen])]
        rw [if_neg (set_ne_self _ _ b h3 hb)]

/-- Closed instance of `aead_roundtrip_and_tamper`: a concrete XChaCha20
encryption round-trips, and flipping ciphertext byte 25 makes decryption
fail with `Decrypt`. -/
theorem aead_roundtrip_and_tamper_witness :
    decryptWithAd Cipher.Xchacha
      (encryptWithAd Cipher.Xchacha [3, 4] [1] [2] (List.replicate 24 0))
      [1] [2] = some (Except.ok [3, 4]) ∧
    decryptWithAd Cipher.Xchacha
      ((encryptWithAd Cipher.Xchacha [3, 4] [1] [2]
        (List.replicate 24 0)).set 25 9) [1] [2]
      = some (Except.error Err.Decrypt) := by
  have h := aead_roundtrip_and_tamper Cipher.Xchacha [1] [2] [3, 4]
    (List.replicate 24 0) (by decide)
  exact ⟨h.1, h.2 25 9 (by decide) (by decide)⟩

/-- C8: `decrypt_with_ad` (and `decrypt`, which is `decrypt_with_ad` with
empty associated data) is total exactly on ciphertexts of length at least
nonce size + 16; on every shorter input it hits a panic (`none`: the
length underflow in `decrypted_len`) instead of returning the `Decrypt`
error.  The bound is 40 bytes for XChaCha20 and 44 bytes for AES. -/
theorem decrypt_short_input_panics (cipher : Cipher)
    (ctxt key ad : List Byte) :
    (decryptWithAd cipher ctxt key ad = none ↔
      ctxt.length < nonceSize cipher + ATAG_SIZE) ∧
    nonceSize Cipher.Xchacha + ATAG_SIZE = 40 ∧
    nonceSize Cipher.Aes + ATAG_SIZE = 44 ∧
    decryptNoAd cipher ctxt key = decryptWithAd cipher ctxt key [] := by
  refine ⟨?_, rfl, rfl, rfl⟩
  rcases Nat.lt_or_ge ctxt.length (nonceSize cipher + ATAG_SIZE) with h | h
  · have hdl : decryptedLen cipher ctxt.length = none := by
      unfold decryptedLen checkedSub
      by_cases h1 : nonceSize cipher ≤ ctxt.length
      · have h2 : ¬(ATAG_SIZE ≤ ctxt.length - nonceSize cipher) := by omega
        simp [h1, h2, Bind.bind, Option.bind]
      · simp [h1, Bind.bind, Option.bind]
    unfold decryptWithAd
    rw [hdl]
    simpa using h
  · have hdl : decryptedLen cipher ctxt.length
        = some (ctxt.length - nonceSize cipher - ATAG_SIZE) := by
      unfold decryptedLen checkedSub
      have h1 : nonceSize cipher ≤ ctxt.length := by omega
      have h2 : ATAG_SIZE ≤ ctxt.length - nonceSize cipher := by omega
      simp [h1, h2, Bind.bind, Option.bind]
    unfold decryptWithAd
    rw [hdl]
    simp only [Option.bind_some]
    constructor
    · intro hc
      split at hc <;> simp at hc
    · intro hc
      omega

theorem findIdxAt_aux (l2 : List Char) :
    ∀ (l1 : List Char) (i : Nat), (∀ c ∈ l1, c ≠ '@') →
      List.findIdx? (fun c => c == '@') (l1 ++ '@' :: l2) i
        = some (i + l1.length) := by
  intro l1
  induction l1 with
  | nil => intro i _; simp [List.findIdx?_cons]
  | cons c t ih =>
    intro i h
    rw [List.cons_append, List.findIdx?_cons]
    have hc : c ≠ '@' := h c (List.mem_cons_self c t)
    rw [if_neg (by simpa using hc)]
    rw [ih (i + 1) (fun x hx => h x (List.mem_cons_of_mem c hx))]
    congr 1
    simp
    omega

theorem findSubstring_sep (tail : List Char) :
    ∀ (scheme : List Char), (∀ c ∈ scheme, c ≠ ':') →
      findSubstring [':', '/', '/'] (scheme ++ ':' :: '/' :: '/' :: tail)
        = some scheme.length := by
  intro scheme
  induction scheme with
  | nil =>
    intro _
    simp [findSubstring, List.isPrefixOf]
  | cons c t ih =>
    intro h
    have hc : c ≠ ':' := h c (List.mem_cons_self c t)
    rw [List.cons_append, findSubstring]
    rw [if_neg ?hpre]
    case hpre =>
      simp [List.isPrefixOf]
      intro hcc
      exact absurd hcc.symm hc
    rw [ih (fun x hx => h x (List.mem_cons_of_mem c hx))]
    simp

/-- C7: for every URI made of a scheme (free of `'@'` and `':'`), the
`"://"` separator, a credential segment (free of `'@'`), an `'@'` and a
remainder, `mask_uri` replaces exactly the credential segment between the
`"://"` and the first `'@'` by `"***"`; a URI without any `'@'` (hence
without an embedded credential) is surfaced unchanged.  `Fs::create` and
`Fs::open` pass the volume URI only through `mask_uri` before logging. -/
theorem mask_uri_masks_credentials (scheme cred rest : List Char)
    (hs1 : ∀ c ∈ scheme, c ≠ '@') (hs2 : ∀ c ∈ scheme, c ≠ ':')
    (hcred : ∀ c ∈ cred, c ≠ '@') :
    maskUri (scheme ++ ':' :: '/' :: '/' :: (cred ++ '@' :: rest))
      = some (scheme ++ ':' :: '/' :: '/' ::
          ('*' :: '*' :: '*' :: '@' :: rest)) ∧
    (∀ uri : List Char, (∀ c ∈ uri, c ≠ '@') → maskUri uri = some uri) := by
  constructor
  · have hsplit : scheme ++ ':' :: '/' :: '/' :: (cred ++ '@' :: rest)
        = (scheme ++ ':' :: '/' :: '/' :: cred) ++ '@' :: rest := by
      simp
    have hat : ∀ c ∈ scheme ++ ':' :: '/' :: '/' :: cred, c ≠ '@' := by
      intro c hm
      rcases List.mem_append.mp hm with h | h
      · exact hs1 c h
      · simp only [List.mem_cons] at h
        rcases h with h | h | h | h
        · subst h; decide
        · subst h; decide
        · subst h; decide
        · exact hcred c h
    have hidx := findIdxAt_aux rest (scheme ++ ':' :: '/' :: '/' :: cred) 0 hat
    have hsep := findSubstring_sep (cred ++ '@' :: rest) scheme hs2
    rw [maskUri, hsplit, hidx]
    rw [← hsplit, hsep]
    simp only [Nat.zero_add, List.length_append, List.length_cons]
    rw [if_pos (by omega)]
    congr 1
    have htake : (scheme ++ ':' :: '/' :: '/' :: (cred ++ '@' :: rest)).take
        (scheme.length + 3) = scheme ++ [':', '/', '/'] := by
      have ht : scheme.length + 3 = (scheme ++ [':', '/', '/']).length := by
        simp
      rw [ht]
      have hx : scheme ++ ':' :: '/' :: '/' :: (cred ++ '@' :: rest)
          = (scheme ++ [':', '/', '/']) ++ (cred ++ '@' :: rest) := by simp
      rw [hx, List.take_left]
    have hd : scheme.length + (cred.length + 3)
        = (scheme ++ ':' :: '/' :: '/' :: cred).length := by
      simp only [List.length_append, List.length_cons]
    have hdrop : (scheme ++ ':' :: '/' :: '/' :: (cred ++ '@' :: rest)).drop
        (scheme.length + (cred.length + 3)) = '@' :: rest := by
      rw [hd, hsplit, List.drop_left]
    rw [htake, hdrop]
    simp
  · intro uri h
    unfold maskUri
    have hnone : List.findIdx? (fun c => c == '@') uri = none :=
      List.findIdx?_eq_none_iff.mpr (fun x hx => by simpa using h x hx)
    rw [hnone]

/-- Closed instance of `mask_uri_masks_credentials`: the credential part
of `"zbox://u:p@h"` is masked to `"zbox://***@h"`. -/
theorem mask_uri_masks_credentials_witness :
    maskUri ['z', 'b', 'o', 'x', ':', '/', '/', 'u', ':', 'p', '@', 'h']
      = some ['z', 'b', 'o', 'x', ':', '/', '/', '*', '*', '*', '@', 'h'] := by
  have h := mask_uri_masks_credentials ['z', 'b', 'o', 'x'] ['u', ':', 'p']
    ['h'] (by decide) (by decide) (by decide)
  simpa using h.1

theorem writeVersions_closed_form (L : Nat) (hL : 0 < L) :
    ∀ n, writeVersions L n =
      if n ≤ L then List.range' 1 n else List.range' (n - L + 1) L := by
  intro n
  induction n with
  | zero => simp [writeVersions]
  | succ n ih =>
    by_cases h : n + 1 ≤ L
    · have hn : n ≤ L := Nat.le_of_succ_le h
      rw [writeVersions, ih, if_pos hn, if_pos h]
      unfold addVersion
      rcases Nat.eq_zero_or_pos n with h0 | hpos
      · subst h0
        simp [List.range'_succ]
        omega
      · rw [List.getLast?_range']
        have hne : n ≠ 0 := Nat.pos_iff_ne_zero.mp hpos
        simp only [if_neg hne, Option.getD_some]
        have h1 : 1 + n - 1 + 1 = 1 + n := by omega
        rw [h1]
        have hcat := @List.range'_concat 1 1 n
        rw [Nat.one_mul] at hcat
        rw [← hcat]
        rw [if_neg (by simp only [List.length_range']; omega)]
    · have hL1 : L < n + 1 := Nat.lt_of_not_le h
      rw [writeVersions, ih]
      by_cases hn : n ≤ L
      · have hnL : L = n := by omega
        subst hnL
        rw [if_pos hn, if_neg h]
        unfold addVersion
        rw [List.getLast?_range']
        have hne : L ≠ 0 := by omega
        simp only [if_neg hne, Option.getD_some]
        have h1 : 1 + L - 1 + 1 = 1 + L := by omega
        rw [h1]
        have hcat := @List.range'_concat 1 1 L
        rw [Nat.one_mul] at hcat
        rw [← hcat]
        rw [if_pos (by simp only [List.length_range']; omega)]
        simp only [List.length_range']
        have h2 : L + 1 - L = 1 := by omega
        rw [h2, List.range'_succ]
        simp only [List.drop_succ_cons, List.drop_zero]
      · have hLn : L < n := by omega
        rw [if_neg hn, if_neg h]
        unfold addVersion
        rw [List.getLast?_range']
        have hne : L ≠ 0 := by omega
        simp only [if_neg hne, Option.getD_some]
        have h1 : n - L + 1 + L - 1 + 1 = n + 1 := by omega
        rw [h1]
        have hcat := @List.range'_concat 1 (n - L + 1) L
        rw [Nat.one_mul] at hcat
        have hx : n - L + 1 + L = n + 1 := by omega
        rw [hx] at hcat
        rw [← hcat]
        rw [if_pos (by simp only [List.length_range']; omega)]
        simp only [List.length_range']
        have h2 : L + 1 - L = 1 := by omega
        rw [h2, List.range'_succ]
        simp only [List.drop_succ_cons, List.drop_zero]
        congr 1
        omega

theorem drop_range_aux :
    ∀ (k s n : Nat), (List.range' s n).drop k = List.range' (s + k) (n - k) := by
  intro k
  induction k with
  | zero => intro s n; simp
  | succ k ih =>
    intro s n
    cases n with
    | zero => simp
    | succ n =>
      rw [List.range'_succ, List.drop_succ_cons, ih]
      congr 1 <;> omega

/-- C2: after `N` writes to a file under version limit `L` with
`L < N`, the history is exactly the `L` most recent versions
`[N-L+1 .. N]` of the full creation sequence `[1 .. N]`, in strictly
increasing version-number order, with the current version `N` last;
`Fs::history` returns exactly this list for a file fnode (oldest to
newest) and fails with `IsDir` only on directories. -/
theorem history_version_limit (L N : Nat) (hL : 0 < L) (hLN : L < N) :
    writeVersions L N = List.range' (N - L + 1) L ∧
    (writeVersions L N).length = L ∧
    writeVersions L N = (List.range' 1 N).drop (N - L) ∧
    List.Chain' (· < ·) (writeVersions L N) ∧
    (writeVersions L N).getLast? = some N ∧
    (∀ (root : FNode) (p : List String) (lim : Nat),
      resolveNode root p = .ok (.file lim (writeVersions L N)) →
        fsHistory ⟨root, false⟩ p = .ok (writeVersions L N)) := by
  have hcf := writeVersions_closed_form L hL N
  rw [if_neg (by omega)] at hcf
  refine ⟨hcf, ?_, ?_, ?_, ?_, ?_⟩
  · rw [hcf, List.length_range']
  · rw [hcf, drop_range_aux]
    congr 1 <;> omega
  · rw [hcf, List.chain'_iff_pairwise]
    exact List.pairwise_lt_range' _ _
  · rw [hcf, List.getLast?_range']
    rw [if_neg (by omega)]
    congr 1
    omega
  · intro root p lim hres
    unfold fsHistory fsResolve
    rw [hres]

/-- Closed instance of `history_version_limit`: three writes under
version limit 2 leave history `[2, 3]`, and `Fs::history` surfaces it. -/
theorem history_version_limit_witness :
    (writeVersions 2 3).length = 2 ∧
    (writeVersions 2 3).getLast? = some 3 ∧
    fsHistory ⟨.dir [("a", .file 2 (writeVersions 2 3))], false⟩ ["a"]
      = .ok (writeVersions 2 3) := by
  have h := history_version_limit 2 3 (by decide) (by decide)
  exact ⟨h.2.1, h.2.2.2.2.1,
    h.2.2.2.2.2 (.dir [("a", .file 2 (writeVersions 2 3))]) ["a"] 2 rfl⟩

theorem resolveNode_nil (n : FNode) : resolveNode n [] = .ok n := by
  cases n <;> rfl

theorem mapAt_nil (t : FNode) (f : FNode → FNode) : mapAt t [] f = f t := by
  cases t <;> rfl

theorem resolve_append (q : List String) :
    ∀ (p : List String) (t u : FNode), resolveNode t p = .ok u →
      resolveNode t (p ++ q) = resolveNode u q := by
  intro p
  induction p with
  | nil =>
    intro t u h
    rw [resolveNode_nil] at h
    cases h
    rfl
  | cons c p ih =>
    intro t u h
    cases t with
    | file lim vers => simp [resolveNode] at h
    | dir kids =>
      rw [List.cons_append]
      simp only [resolveNode] at h ⊢
      cases hl : lookupChild kids c with
      | none => rw [hl] at h; simp at h
      | some ch =>
        rw [hl] at h
        exact ih ch u h

theorem lookup_updateChild_self :
    ∀ (kids : List (String × FNode)) (c : String) (g : FNode → FNode)
      (ch : FNode), lookupChild kids c = some ch →
      lookupChild (updateChild kids c g) c = some (g ch) := by
  intro kids
  induction kids with
  | nil => intro c g ch h; simp [lookupChild] at h
  | cons e rest ih =>
    intro c g ch h
    obtain ⟨n, x⟩ := e
    by_cases hc : (n == c) = true
    · simp only [lookupChild, List.find?, hc] at h
      cases h
      simp [updateChild, lookupChild, List.find?, hc]
    · simp only [lookupChild, List.find?, Bool.not_eq_true] at h
      rw [Bool.not_eq_true] at hc
      rw [hc] at h
      simp only [updateChild, hc, Bool.false_eq_true, if_false]
      simp only [lookupChild, List.find?, hc]
      exact ih c g ch h

theorem resolve_mapAt_self (f : FNode → FNode) :
    ∀ (p : List String) (t s : FNode), resolveNode t p = .ok s →
      resolveNode (mapAt t p f) p = .ok (f s) := by
  intro p
  induction p with
  | nil =>
    intro t s h
    rw [resolveNode_nil] at h
    cases h
    rw [mapAt_nil, resolveNode_nil]
  | cons c q ih =>
    intro t s h
    cases t with
    | file lim vers => simp [resolveNode] at h
    | dir kids =>
      simp only [resolveNode] at h
      cases hl : lookupChild kids c with
      | none => rw [hl] at h; simp at h
      | some ch =>
        rw [hl] at h
        simp only [mapAt, resolveNode]
        rw [lookup_updateChild_self kids c _ ch hl]
        exact ih ch s h

theorem updateChild_updateChild (c : String) (g1 g2 : FNode → FNode) :
    ∀ kids, updateChild (updateChild kids c g1) c g2
      = updateChild kids c (fun x => g2 (g1 x)) := by
  intro kids
  induction kids with
  | nil => rfl
  | cons e rest ih =>
    obtain ⟨n, x⟩ := e
    by_cases hc : (n == c) = true
    · simp [updateChild, hc]
    · rw [Bool.not_eq_true] at hc
      simp [updateChild, hc, ih]

theorem eraseChild_updateChild (c : String) (g : FNode → FNode) :
    ∀ kids, eraseChild (updateChild kids c g) c = eraseChild kids c := by
  intro kids
  induction kids with
  | nil => rfl
  | cons e rest ih =>
    obtain ⟨n, x⟩ := e
    by_cases hc : (n == c) = true
    · simp [updateChild, eraseChild, hc]
    · rw [Bool.not_eq_true] at hc
      simp [updateChild, eraseChild, hc, ih]

theorem mapAt_append (q : List String) (f : FNode → FNode) :
    ∀ (p : List String) (t : FNode),
      mapAt t (p ++ q) f = mapAt t p (fun s => mapAt s q f) := by
  intro p
  induction p with
  | nil =>
    intro t
    rw [List.nil_append, mapAt_nil]
  | cons c p ih =>
    intro t
    cases t with
    | file lim vers => rfl
    | dir kids =>
      simp only [List.cons_append, mapAt]
      refine congrArg FNode.dir
        (congrArg (updateChild kids c) (funext fun ch => ?_))
      show mapAt ch (p ++ q) f = mapAt ch p fun s => mapAt s q f
      exact ih ch

theorem mapAt_mapAt (f g : FNode → FNode) :
    ∀ (p : List String) (t : FNode),
      mapAt (mapAt t p f) p g = mapAt t p (fun x => g (f x)) := by
  intro p
  induction p with
  | nil =>
    intro t
    simp [mapAt_nil]
  | cons c q ih =>
    intro t
    cases t with
    | file lim vers => rfl
    | dir kids =>
      simp only [mapAt]
      rw [updateChild_updateChild]
      refine congrArg FNode.dir
        (congrArg (updateChild kids c) (funext fun x => ?_))
      show mapAt (mapAt x q f) q g = mapAt x q fun y => g (f y)
      exact ih x

theorem removeAt_append_eraseTop (c : String) :
    ∀ (p : List String) (t : FNode),
      removeAt t (p ++ [c]) = mapAt t p (eraseTop c) := by
  intro p
  induction p with
  | nil =>
    intro t
    cases t with
    | file lim vers => rfl
    | dir kids => rfl
  | cons a p ih =>
    intro t
    cases t with
    | file lim vers => rfl
    | dir kids =>
      cases hp : p ++ [c] with
      | nil => exact absurd hp (by simp)
      | cons q r =>
        rw [List.cons_append, hp]
        simp only [removeAt, mapAt]
        have hfun : (fun ch => removeAt ch (q :: r))
            = (fun ch => mapAt ch p (eraseTop c)) := by
          funext ch
          rw [← hp, ih ch]
        rw [hfun]

theorem eraseTop_mapAt_single (c : String) (g : FNode → FNode) (x : FNode) :
    eraseTop c (mapAt x [c] g) = eraseTop c x := by
  cases x with
  | file lim vers => rfl
  | dir kids =>
    simp only [mapAt, eraseTop]
    rw [eraseChild_updateChild]

theorem updateChild_id :
    ∀ (kids : List (String × FNode)) (c : String) (g : FNode → FNode)
      (ch : FNode), lookupChild kids c = some ch → g ch = ch →
      updateChild kids c g = kids := by
  intro kids
  induction kids with
  | nil => intro c g ch h; simp [lookupChild] at h
  | cons e rest ih =>
    intro c g ch h hg
    obtain ⟨n, x⟩ := e
    by_cases hc : (n == c) = true
    · simp only [lookupChild, List.find?, hc] at h
      cases h
      simp [updateChild, hc, hg]
    · simp only [lookupChild, List.find?, Bool.not_eq_true] at h
      rw [Bool.not_eq_true] at hc
      rw [hc] at h
      simp only [updateChild, hc, Bool.false_eq_true, if_false]
      rw [ih c g ch (by simpa [lookupChild] using h) hg]

theorem mapAt_id_of_fix (f : FNode → FNode) :
    ∀ (p : List String) (t s : FNode), resolveNode t p = .ok s →
      f s = s → mapAt t p f = t := by
  intro p
  induction p with
  | nil =>
    intro t s h hf
    rw [resolveNode_nil] at h
    cases h
    rw [mapAt_nil]
    exact hf
  | cons c q ih =>
    intro t s h hf
    cases t with
    | file lim vers => simp [resolveNode] at h
    | dir kids =>
      simp only [resolveNode] at h
      cases hl : lookupChild kids c with
      | none => rw [hl] at h; simp at h
      | some ch =>
        rw [hl] at h
        simp only [mapAt]
        rw [updateChild_id kids c _ ch hl (ih ch s h hf)]

theorem sizeF_pos (n : FNode) : 1 ≤ sizeF n := by
  cases n with
  | file lim vers => rw [sizeF]
  | dir kids => rw [sizeF]; omega

theorem removeDirAll_spec (fuel : Nat) :
    (∀ (fs : FsM) (p : List String) (c : String)
      (kids1 : List (String × FNode)),
      fs.readOnly = false →
      resolveNode fs.root (p ++ [c]) = .ok (.dir kids1) →
      sizeF (.dir kids1) ≤ fuel →
      removeDirAll fuel fs (p ++ [c])
        = some (.ok (), { fs with root := removeAt fs.root (p ++ [c]) })) ∧
    (∀ (fs : FsM) (p : List String) (kids : List (String × FNode)),
      fs.readOnly = false →
      resolveNode fs.root p = .ok (.dir kids) →
      sizeKids kids ≤ fuel →
      removeEntries fuel fs p (kids.map (fun e => (e.fst, e.snd.isDir)))
        = some (.ok (),
            { fs with root := mapAt fs.root p (fun _ => .dir []) })) := by
  induction fuel using Nat.strong_induction_on with
  | _ fuel ih =>
  have hP1 : ∀ (fs : FsM) (p : List String) (c : String)
      (kids1 : List (String × FNode)),
      fs.readOnly = false →
      resolveNode fs.root (p ++ [c]) = .ok (.dir kids1) →
      sizeF (.dir kids1) ≤ fuel →
      removeDirAll fuel fs (p ++ [c])
        = some (.ok (), { fs with root := removeAt fs.root (p ++ [c]) }) := by
    intro fs p c kids1 hro hres hsz
    have hsf : sizeF (.dir kids1) = 1 + sizeKids kids1 := by rw [sizeF]
    obtain ⟨f, rfl⟩ : ∃ f, fuel = f + 1 := ⟨fuel - 1, by omega⟩
    rw [removeDirAll]
    have hrd : readDir fs (p ++ [c])
        = .ok (kids1.map (fun e => (e.fst, e.snd.isDir))) := by
      unfold readDir fsResolve
      rw [hres]
    have hre := (ih f (by omega)).2 fs (p ++ [c]) kids1 hro hres (by omega)
    have hres2 : resolveNode
        (mapAt fs.root (p ++ [c]) (fun _ => FNode.dir [])) (p ++ [c])
        = .ok (.dir []) := resolve_mapAt_self _ _ _ _ hres
    have hne : ¬(p ++ [c] = ([] : List String)) := by simp
    have hroots : removeAt
        (mapAt fs.root (p ++ [c]) (fun _ => FNode.dir [])) (p ++ [c])
        = removeAt fs.root (p ++ [c]) := by
      rw [removeAt_append_eraseTop, removeAt_append_eraseTop,
        mapAt_append [c] _ p, mapAt_mapAt]
      refine congrArg (mapAt fs.root p) ?_
      funext x
      exact eraseTop_mapAt_single c _ x
    have hrd2 : removeDir
        { fs with root := mapAt fs.root (p ++ [c]) (fun _ => FNode.dir []) }
        (p ++ [c])
        = (.ok (), { fs with root := removeAt fs.root (p ++ [c]) }) := by
      unfold removeDir fsResolve
      simp only [hro, hres2, hne, Bool.false_eq_true, if_false,
        List.length_nil, Nat.lt_irrefl]
      rw [hroots]
    simp only [hrd, hre, hrd2]
  refine ⟨hP1, ?_⟩
  intro fs p kids
  induction kids generalizing fs with
  | nil =>
    intro hro hres hsz
    simp only [List.map_nil]
    rw [removeEntries]
    have hid : mapAt fs.root p (fun _ => FNode.dir []) = fs.root :=
      mapAt_id_of_fix _ p fs.root (.dir []) hres rfl
    rw [hid]
  | cons e rest ihk =>
    obtain ⟨c1, n1⟩ := e
    intro hro hres hsz
    have hszc : sizeKids ((c1, n1) :: rest) = sizeF n1 + sizeKids rest := by
      rw [sizeKids]
    have hpos := sizeF_pos n1
    simp only [List.map_cons]
    rw [removeEntries]
    have hresc2 : resolveNode fs.root (p ++ [c1]) = .ok n1 := by
      rw [resolve_append [c1] p fs.root _ hres]
      simp [resolveNode, lookupChild, List.find?]
    have hstep : (if n1.isDir then removeDirAll fuel fs (p ++ [c1])
        else some (removeFile fs (p ++ [c1])))
        = some (.ok (), { fs with root := removeAt fs.root (p ++ [c1]) }) := by
      cases n1 with
      | file lim vers =>
        simp only [FNode.isDir, Bool.false_eq_true, if_false]
        unfold removeFile fsResolve
        simp only [hro, hresc2, Bool.false_eq_true, if_false]
      | dir kids1 =>
        simp only [FNode.isDir, if_true]
        refine hP1 fs p c1 kids1 hro hresc2 ?_
        have h1 : sizeKids ((c1, FNode.dir kids1) :: rest)
            = sizeF (.dir kids1) + sizeKids rest := by rw [sizeKids]
        omega
    have hres1 : resolveNode (removeAt fs.root (p ++ [c1])) p
        = .ok (.dir rest) := by
      rw [removeAt_append_eraseTop]
      have hx := resolve_mapAt_self (eraseTop c1) p fs.root _ hres
      simpa [eraseTop, eraseChild] using hx
    have hrec := ihk { fs with root := removeAt fs.root (p ++ [c1]) }
      hro hres1 (by omega)
    have hfin : mapAt (removeAt fs.root (p ++ [c1])) p (fun _ => FNode.dir [])
        = mapAt fs.root p (fun _ => FNode.dir []) := by
      rw [removeAt_append_eraseTop]
      rw [mapAt_mapAt]
    simp only [hstep, hrec, hfin]

/-- C10: with the repo writable and enough fuel for the recursion,
`remove_dir_all` on the root path removes every descendant of the root,
swallows the `IsRoot` error of the final `remove_dir` attempt and
returns `Ok`, leaving the root directory itself in place (empty); other
errors propagate: a path that fails to resolve surfaces its resolution
error, and a read-only repo surfaces `ReadOnly` from the final
`remove_dir`. -/
theorem remove_dir_all_root_survives (fs : FsM)
    (kids : List (String × FNode)) (fuel : Nat)
    (hro : fs.readOnly = false) (hroot : fs.root = .dir kids)
    (hfuel : sizeF fs.root ≤ fuel) :
    removeDirAll fuel fs [] = some (.ok (), { fs with root := .dir [] }) ∧
    (∀ (fs2 : FsM) (p2 : List String) (e : Err),
      fsResolve fs2 p2 = .error e →
      removeDirAll fuel fs2 p2 = some (.error e, fs2)) ∧
    (∀ (fs3 : FsM) (p3 : List String) (c : String),
      fs3.readOnly = true →
      resolveNode fs3.root (p3 ++ [c]) = .ok (.dir []) →
      removeDirAll fuel fs3 (p3 ++ [c])
        = some (.error Err.ReadOnly, fs3)) := by
  have h1 : 1 ≤ fuel := le_trans (sizeF_pos fs.root) hfuel
  obtain ⟨f, rfl⟩ : ∃ f, fuel = f + 1 := ⟨fuel - 1, by omega⟩
  refine ⟨?_, ?_, ?_⟩
  · rw [removeDirAll]
    have hres : resolveNode fs.root [] = .ok (.dir kids) := by
      rw [resolveNode_nil, hroot]
    have hrd : readDir fs []
        = .ok (kids.map (fun e => (e.fst, e.snd.isDir))) := by
      unfold readDir fsResolve
      rw [hres]
    have hsz : sizeKids kids ≤ f := by
      have hx : sizeF fs.root = 1 + sizeKids kids := by rw [hroot, sizeF]
      omega
    have hre := (removeDirAll_spec f).2 fs [] kids hro hres hsz
    rw [mapAt_nil] at hre
    have hrd3 : removeDir { fs with root := FNode.dir [] } []
        = (.error Err.IsRoot, { fs with root := FNode.dir [] }) := by
      unfold removeDir fsResolve
      simp only [hro, resolveNode_nil, Bool.false_eq_true, if_false]
      simp
    simp only [hrd, hre, hrd3]
    simp
  · intro fs2 p2 e hresE
    rw [removeDirAll]
    have hrd : readDir fs2 p2 = .error e := by
      unfold readDir
      rw [hresE]
    rw [hrd]
  · intro fs3 p3 c hro3 hres3
    rw [removeDirAll]
    have hrd : readDir fs3 (p3 ++ [c]) = .ok [] := by
      unfold readDir fsResolve
      rw [hres3]
      simp
    have hrd3 : removeDir fs3 (p3 ++ [c]) = (.error Err.ReadOnly, fs3) := by
      unfold removeDir
      simp only [hro3, if_true]
    simp only [hrd, removeEntries, hrd3]
    simp

/-- Closed instance of `remove_dir_all_root_survives`: a root with a file
and a non-empty directory is emptied while the root survives, and a
`remove_dir_all` of a missing path reports `NotFound`. -/
theorem remove_dir_all_root_survives_witness :
    removeDirAll 4
      ⟨.dir [("a", .file 1 []), ("d", .dir [("b", .file 1 [])])], false⟩ []
      = some (.ok (),
          ⟨.dir [], false⟩) ∧
    removeDirAll 4
      ⟨.dir [("a", .file 1 []), ("d", .dir [("b", .file 1 [])])], false⟩
      ["zzz"]
      = some (.error Err.NotFound,
          ⟨.dir [("a", .file 1 []), ("d", .dir [("b", .file 1 [])])],
            false⟩) := by
  have h := remove_dir_all_root_survives
    ⟨.dir [("a", .file 1 []), ("d", .dir [("b", .file 1 [])])], false⟩
    [("a", .file 1 []), ("d", .dir [("b", .file 1 [])])] 4 rfl rfl
    (by simp [sizeF, sizeKids])
  refine ⟨h.1, ?_⟩
  exact h.2.1
    ⟨.dir [("a", .file 1 []), ("d", .dir [("b", .file 1 [])])], false⟩
    ["zzz"] Err.NotFound rfl

/-- C3 (amended): with the repo writable, (1) a rename whose destination
is a strict descendant of the source fails with `InvalidArgument` — and
since every absolute path descends from the root, renaming the root to
any other path falls into this case and fails with `InvalidArgument`,
not `IsRoot`; (2) renaming a directory onto an existing non-empty
directory fails with `NotEmpty`; (3) removing a non-empty directory
fails with `NotEmpty`; (4) removing the root fails with `IsRoot`;
(5) renaming a non-root path onto the root fails with `IsRoot`.  In each
failure case the tree is returned unchanged. -/
theorem rename_remove_structural_guards (fs : FsM)
    (fromP toP p : List String) (hro : fs.readOnly = false) :
    (fromP ≠ toP → fromP.isPrefixOf toP →
      rename fs fromP toP = (.error Err.InvalidArgument, fs)) ∧
    (∀ ks e es, fromP ≠ toP → ¬ fromP.isPrefixOf toP →
      fromP ≠ [] → toP ≠ [] →
      fsResolve fs fromP = .ok (.dir ks) →
      fsResolve fs toP = .ok (.dir (e :: es)) →
      rename fs fromP toP = (.error Err.NotEmpty, fs)) ∧
    (∀ e es, p ≠ [] → fsResolve fs p = .ok (.dir (e :: es)) →
      removeDir fs p = (.error Err.NotEmpty, fs)) ∧
    (∀ kids, fs.root = .dir kids →
      removeDir fs [] = (.error Err.IsRoot, fs)) ∧
    (∀ src, fromP ≠ [] → fsResolve fs fromP = .ok src →
      rename fs fromP [] = (.error Err.IsRoot, fs)) := by
  refine ⟨?_, ?_, ?_, ?_, ?_⟩
  · intro hne hpre
    simp [rename, hro, hne, hpre]
  · intro ks e es hne hpre hf ht hrf hrt
    simp only [rename, hro, Bool.false_eq_true, if_false, if_neg hne,
      if_neg hpre, hrf, hrt]
    simp only [FNode.isFile, FNode.isDir, FNode.childrenCnt,
      Bool.false_and, Bool.true_and, if_neg hf, if_neg ht]
    simp
  · intro e es hp hres
    simp only [removeDir, hro, Bool.false_eq_true, if_false, hres,
      if_neg hp]
    simp
  · intro kids hkids
    simp only [removeDir, hro, Bool.false_eq_true, if_false, fsResolve,
      hkids, resolveNode]
    simp
  · intro src hf hrf
    have hne : fromP ≠ [] := hf
    have hpre : ¬ fromP.isPrefixOf [] := by
      cases fromP with
      | nil => exact absurd rfl hf
      | cons a t => simp [List.isPrefixOf]
    simp only [rename, hro, Bool.false_eq_true, if_false, if_neg hne,
      if_neg hpre, hrf]
    have hroot : fsResolve fs [] = .ok fs.root := resolveNode_nil fs.root
    simp only [hroot, if_neg hf]
    simp

/-- Closed instances of `rename_remove_structural_guards` on a concrete
tree with two non-empty directories. -/
theorem rename_remove_structural_guards_witness :
    (rename ⟨.dir [("d1", .dir [("x", .file 1 [])]),
        ("d2", .dir [("y", .file 1 [])])], false⟩ ["d1"] ["d1", "x"]
      = (.error Err.InvalidArgument,
         ⟨.dir [("d1", .dir [("x", .file 1 [])]),
            ("d2", .dir [("y", .file 1 [])])], false⟩)) ∧
    (rename ⟨.dir [("d1", .dir [("x", .file 1 [])]),
        ("d2", .dir [("y", .file 1 [])])], false⟩ ["d1"] ["d2"]
      = (.error Err.NotEmpty,
         ⟨.dir [("d1", .dir [("x", .file 1 [])]),
            ("d2", .dir [("y", .file 1 [])])], false⟩)) ∧
    (removeDir ⟨.dir [("d1", .dir [("x", .file 1 [])]),
        ("d2", .dir [("y", .file 1 [])])], false⟩ ["d1"]
      = (.error Err.NotEmpty,
         ⟨.dir [("d1", .dir [("x", .file 1 [])]),
            ("d2", .dir [("y", .file 1 [])])], false⟩)) ∧
    (removeDir ⟨.dir [("d1", .dir [("x", .file 1 [])]),
        ("d2", .dir [("y", .file 1 [])])], false⟩ []
      = (.error Err.IsRoot,
         ⟨.dir [("d1", .dir [("x", .file 1 [])]),
            ("d2", .dir [("y", .file 1 [])])], false⟩)) ∧
    (rename ⟨.dir [("d1", .dir [("x", .file 1 [])]),
        ("d2", .dir [("y", .file 1 [])])], false⟩ ["d1"] []
      = (.error Err.IsRoot,
         ⟨.dir [("d1", .dir [("x", .file 1 [])]),
            ("d2", .dir [("y", .file 1 [])])], false⟩)) := by
  have h := rename_remove_structural_guards
    ⟨.dir [("d1", .dir [("x", .file 1 [])]),
      ("d2", .dir [("y", .file 1 [])])], false⟩ ["d1"] ["d2"] ["d1"] rfl
  have h1 := rename_remove_structural_guards
    ⟨.dir [("d1", .dir [("x", .file 1 [])]),
      ("d2", .dir [("y", .file 1 [])])], false⟩ ["d1"] ["d1", "x"] [] rfl
  refine ⟨?_, ?_, ?_, ?_, ?_⟩
  · exact h1.1 (by decide) (by decide)
  · exact h.2.1 [("x", .file 1 [])] ("y", .file 1 []) []
      (by decide) (by decide) (by decide) (by decide) rfl rfl
  · exact h.2.2.1 ("x", .file 1 []) [] (by decide) rfl
  · exact h.2.2.2.1 [("d1", .dir [("x", .file 1 [])]),
      ("d2", .dir [("y", .file 1 [])])] rfl
  · exact h.2.2.2.2 (.dir [("x", .file 1 [])]) (by decide) rfl

/-- Counterexample to C3 as stated: renaming the root directory fails
with `InvalidArgument` (the destination-descends-from-source check at
`fs/fs.rs` line 577 fires before the `IsRoot` check at line 591, and
every absolute destination starts with the root path), not with
`IsRoot`. -/
theorem rename_root_not_isroot :
    rename ⟨.dir [("a", .file 1 [])], false⟩ [] ["a"]
      = (.error Err.InvalidArgument, ⟨.dir [("a", .file 1 [])], false⟩) ∧
    Err.InvalidArgument ≠ Err.IsRoot := by
  exact ⟨rfl, by decide⟩

/-- C9: with the repo writable, renaming a path onto itself returns `Ok`
and leaves the file system unchanged, even when the path does not
resolve (the short-circuit precedes resolution); and copying a file onto
itself returns `Ok` without adding a version. -/
theorem rename_copy_self_identity (fs : FsM) (p : List String)
    (hro : fs.readOnly = false) :
    rename fs p p = (.ok (), fs) ∧
    (∀ lim vers, fsResolve fs p = .ok (.file lim vers) →
      copy fs p p = (.ok (), fs)) := by
  constructor
  · simp [rename, hro]
  · intro lim vers hres
    simp [copy, hro, hres]

/-- Closed instance of `rename_copy_self_identity`: a self-rename of a
missing path succeeds, and a self-copy of an existing file succeeds
without a new version. -/
theorem rename_copy_self_identity_witness :
    rename ⟨.dir [("a", .file 1 [1])], false⟩ ["missing"] ["missing"]
      = (.ok (), ⟨.dir [("a", .file 1 [1])], false⟩) ∧
    copy ⟨.dir [("a", .file 1 [1])], false⟩ ["a"] ["a"]
      = (.ok (), ⟨.dir [("a", .file 1 [1])], false⟩) := by
  have h1 := rename_copy_self_identity
    ⟨.dir [("a", .file 1 [1])], false⟩ ["missing"] rfl
  have h2 := rename_copy_self_identity
    ⟨.dir [("a", .file 1 [1])], false⟩ ["a"] rfl
  exact ⟨h1.1, h2.2 1 [1] rfl⟩

theorem lock_repo_advisory_witness :
    true = true
      ∧ memOpen { isOpened := true } false = Except.error Err.RepoOpened :=
  lock_repo_advisory.2.2.1 false false true true (Or.inl (by decide))

end Zbox
